import Mathlib

/-!
Verification of the core pipeline of `src/source/features/list-prs-for-file.tsx`:
the derived-index builder inside `getPrsByFile`, the stale-while-revalidate
cache wrapping it, the selector-observer dispatch contract, and the two DOM
callbacks `addToSingleFile` / `addToEditingFile`.

The index builder and the callbacks are embedded directly from the source.
JavaScript objects with string keys preserve insertion order for non-integer
keys, so `Record<string, number[]>` is embedded as an association list
`List (String × List Nat)` with first-match lookup and in-place update.
-/

namespace ListPrsForFile

/-- One node of `repository.pullRequests.nodes`: a pull request `number`
together with the paths of the files it touches (`pr.files.nodes`). -/
structure PRRecord where
  number : Nat
  files : List String
deriving DecidableEq, Repr

/-- First-match lookup in an association list with string keys, embedding
JavaScript property access `files[path]` (which yields `undefined`, here
`none`, for an absent key). -/
def lookupKey {β : Type} (k : String) : List (String × β) → Option β
  | [] => none
  | (k', v) :: rest => if k' = k then some v else lookupKey k rest

/-- One iteration of the inner loop of `getPrsByFile`
(src/source/features/list-prs-for-file.tsx lines 94-99):
`files[path] = files[path] ?? []; if (files[path].length < 10) { files[path].push(pr.number); }`.
A fresh key is created with the single pushed element (the fresh list `[]`
always has length `< 10`); an existing key's list gets `n` appended only
while it has fewer than 10 entries. -/
def addContribution : List (String × List Nat) → String → Nat → List (String × List Nat)
  | [], path, n => [(path, [n])]
  | (k, v) :: rest, path, n =>
    if k = path then
      (k, if v.length < 10 then v ++ [n] else v) :: rest
    else
      (k, v) :: addContribution rest path n

/-- The inner `for (const {path} of pr.files.nodes)` loop: fold
`addContribution` over a record's file paths with the record's number. -/
def addPaths : List (String × List Nat) → List String → Nat → List (String × List Nat)
  | files, [], _ => files
  | files, p :: ps, n => addPaths (addContribution files p n) ps n

/-- One iteration of the outer `for (const pr of repository.pullRequests.nodes)`
loop of `getPrsByFile`. -/
def addPR (files : List (String × List Nat)) (pr : PRRecord) : List (String × List Nat) :=
  addPaths files pr.files pr.number

/-- The aggregation loop of `getPrsByFile`
(src/source/features/list-prs-for-file.tsx lines 90-101): starting from the
empty object `files = {}`, process every pull-request record in order. -/
def buildIndex (prs : List PRRecord) : List (String × List Nat) :=
  prs.foldl addPR []

/-- Per-key model of one capped push: append unless the list already has 10
entries. -/
def pushCap (v : List Nat) (n : Nat) : List Nat :=
  if v.length < 10 then v ++ [n] else v

/-- Per-key model of a sequence of capped pushes. -/
def pushAll (v : List Nat) (ns : List Nat) : List Nat :=
  ns.foldl pushCap v

/-- The (key, id) contributions a single path list with number `n` yields to
key `k`: one copy of `n` per occurrence of `k` among the paths, in order. -/
def contribsOf (ps : List String) (n : Nat) (k : String) : List Nat :=
  (ps.filter (fun p => p = k)).map (fun _ => n)

/-- The full contribution sequence of a record list to key `k`:
record by record, in processing order. -/
def contribSeq (prs : List PRRecord) (k : String) : List Nat :=
  (prs.map (fun pr => contribsOf pr.files pr.number k)).flatten

/-- The value stored at key `k`, with absence read as the empty list. -/
def valueAt (files : List (String × List Nat)) (k : String) : List Nat :=
  (lookupKey k files).getD []

theorem lookupKey_addContribution (files : List (String × List Nat))
    (path : String) (n : Nat) (k : String) :
    lookupKey k (addContribution files path n) =
      if path = k then some (pushCap (valueAt files path) n)
      else lookupKey k files := by
  induction files with
  | nil =>
    by_cases h : path = k <;>
      simp [addContribution, lookupKey, valueAt, pushCap, h]
  | cons hd tl ih =>
    obtain ⟨k', v⟩ := hd
    by_cases hk' : k' = path
    · subst hk'
      by_cases h : k' = k
      · subst h
        simp [addContribution, lookupKey, valueAt, pushCap]
      · simp [addContribution, lookupKey, valueAt, h, pushCap]
    · by_cases h : k' = k
      · subst h
        have hpk : ¬ path = k' := fun hh => hk' hh.symm
        simp [addContribution, lookupKey, valueAt, hk', hpk]
      · simp [addContribution, lookupKey, valueAt, hk', h, ih]

theorem valueAt_addContribution (files : List (String × List Nat))
    (path : String) (n : Nat) (k : String) :
    valueAt (addContribution files path n) k =
      if path = k then pushCap (valueAt files path) n
      else valueAt files k := by
  unfold valueAt
  rw [lookupKey_addContribution]
  by_cases h : path = k <;> simp [h, valueAt]

theorem valueAt_addPaths (files : List (String × List Nat))
    (ps : List String) (n : Nat) (k : String) :
    valueAt (addPaths files ps n) k = pushAll (valueAt files k) (contribsOf ps n k) := by
  induction ps generalizing files with
  | nil => simp [addPaths, contribsOf, pushAll]
  | cons p ps ih =>
    by_cases h : p = k
    · subst h
      simp [addPaths, ih, contribsOf, pushAll, valueAt_addContribution, List.filter]
    · have : valueAt (addContribution files p n) k = valueAt files k := by
        rw [valueAt_addContribution]; simp [h]
      simp [addPaths, ih, this, contribsOf, List.filter, h]

theorem pushAll_append (v : List Nat) (a b : List Nat) :
    pushAll v (a ++ b) = pushAll (pushAll v a) b := by
  simp [pushAll, List.foldl_append]

theorem valueAt_buildIndex_aux (prs : List PRRecord)
    (files : List (String × List Nat)) (k : String) :
    valueAt (prs.foldl addPR files) k = pushAll (valueAt files k) (contribSeq prs k) := by
  induction prs generalizing files with
  | nil => simp [contribSeq, pushAll]
  | cons pr prs ih =>
    simp only [List.foldl_cons]
    rw [ih]
    have h2 : contribSeq (pr :: prs) k =
        contribsOf pr.files pr.number k ++ contribSeq prs k := by
      simp [contribSeq]
    rw [h2, pushAll_append]
    congr 1
    exact valueAt_addPaths files pr.files pr.number k

theorem pushAll_eq_append_take (v : List Nat) (ns : List Nat) (h : v.length ≤ 10) :
    pushAll v ns = v ++ ns.take (10 - v.length) := by
  induction ns generalizing v with
  | nil => simp [pushAll]
  | cons n ns ih =>
    by_cases hv : v.length < 10
    · have hlen : (v ++ [n]).length ≤ 10 := by
        simp [List.length_append]; omega
      have : pushAll v (n :: ns) = pushAll (v ++ [n]) ns := by
        simp [pushAll, pushCap, hv]
      rw [this, ih _ hlen]
      have h1 : 10 - v.length = (10 - (v ++ [n]).length) + 1 := by
        simp [List.length_append]; omega
      rw [h1]
      simp [List.take_succ_cons, List.append_assoc]
    · have hv10 : v.length = 10 := by omega
      have : pushAll v (n :: ns) = pushAll v ns := by
        simp [pushAll, pushCap, hv]
      rw [this, ih v h]
      simp [hv10]

/-- The central characterisation: the list stored at key `k` by the
aggregation loop is exactly the first 10 elements of the concatenated
contribution sequence. -/
theorem valueAt_buildIndex (prs : List PRRecord) (k : String) :
    valueAt (buildIndex prs) k = (contribSeq prs k).take 10 := by
  have := valueAt_buildIndex_aux prs [] k
  rw [buildIndex, this]
  have : valueAt ([] : List (String × List Nat)) k = [] := rfl
  rw [this, pushAll_eq_append_take _ _ (by simp)]
  simp

theorem mem_addContribution_length (files : List (String × List Nat))
    (path : String) (n : Nat)
    (h : ∀ kv ∈ files, (kv : String × List Nat).2.length ≤ 10) :
    ∀ kv ∈ addContribution files path n, (kv : String × List Nat).2.length ≤ 10 := by
  induction files with
  | nil =>
    intro kv hkv
    simp [addContribution] at hkv
    subst hkv
    simp
  | cons hd tl ih =>
    obtain ⟨k, v⟩ := hd
    intro kv hkv
    by_cases hk : k = path
    · simp [addContribution, hk] at hkv
      rcases hkv with hkv | hkv
      · subst hkv
        by_cases hv : v.length < 10
        · simp [hv]
          omega
        · have := h (k, v) (by simp)
          simp [hv]
          exact this
      · exact h kv (by simp [hkv])
    · simp [addContribution, hk] at hkv
      rcases hkv with hkv | hkv
      · subst hkv
        exact h (k, v) (by simp)
      · exact ih (fun kv hkv => h kv (by simp [hkv])) kv hkv

theorem mem_addPaths_length (ps : List String) (files : List (String × List Nat)) (n : Nat)
    (h : ∀ kv ∈ files, (kv : String × List Nat).2.length ≤ 10) :
    ∀ kv ∈ addPaths files ps n, (kv : String × List Nat).2.length ≤ 10 := by
  induction ps generalizing files with
  | nil => simpa [addPaths] using h
  | cons p ps ih =>
    exact ih (addContribution files p n) (mem_addContribution_length files p n h)

theorem mem_buildIndex_length (prs : List PRRecord) :
    ∀ kv ∈ buildIndex prs, (kv : String × List Nat).2.length ≤ 10 := by
  suffices h : ∀ files, (∀ kv ∈ files, (kv : String × List Nat).2.length ≤ 10) →
      ∀ kv ∈ prs.foldl addPR files, (kv : String × List Nat).2.length ≤ 10 by
    exact h [] (by simp)
  induction prs with
  | nil => intro files h; simpa using h
  | cons pr prs ih =>
    intro files h
    exact ih (addPR files pr) (mem_addPaths_length pr.files files pr.number h)

theorem addContribution_of_full (files : List (String × List Nat)) (path : String)
    (n : Nat) (v : List Nat) (hl : lookupKey path files = some v)
    (hv : ¬ v.length < 10) :
    addContribution files path n = files := by
  induction files with
  | nil => simp [lookupKey] at hl
  | cons hd tl ih =>
    obtain ⟨k, w⟩ := hd
    by_cases h : k = path
    · subst h
      simp [lookupKey] at hl
      subst hl
      simp [addContribution, hv]
    · simp [lookupKey, h] at hl
      simp [addContribution, h, ih hl]

/-- C1: every key's list in the index built by the aggregation loop of
`getPrsByFile` has length at most 10, and once a key's list has 10 entries a
further contribution to that key leaves the index unchanged (it is dropped). -/
theorem claim1 (prs : List PRRecord) :
    (∀ kv ∈ buildIndex prs, (kv : String × List Nat).2.length ≤ 10) ∧
    (∀ path n v, lookupKey path (buildIndex prs) = some v → v.length = 10 →
      addContribution (buildIndex prs) path n = buildIndex prs) := by
  refine ⟨mem_buildIndex_length prs, ?_⟩
  intro path n v hl hv
  exact addContribution_of_full (buildIndex prs) path n v hl (by omega)

/-- An input where one key receives 11 contributions, so the 11th is dropped. -/
def prsMany : List PRRecord :=
  (List.range 11).map (fun i => { number := i, files := ["a"] })

/-- Witness for C1 at a concrete input: all lists are capped and a further
contribution to the full key `"a"` is dropped. -/
theorem claim1_witness :
    (∀ kv ∈ buildIndex prsMany, (kv : String × List Nat).2.length ≤ 10) ∧
    addContribution (buildIndex prsMany) "a" 99 = buildIndex prsMany :=
  ⟨(claim1 prsMany).1,
    (claim1 prsMany).2 "a" 99 [0, 1, 2, 3, 4, 5, 6, 7, 8, 9] (by decide) (by decide)⟩

/-- C2: for every input record list and every key, the stored list is exactly
the first-10-elements prefix of the concatenated contribution sequence
(records in processing order, each record's ids in order); in particular it is
a prefix of that sequence, so first-seen contributions win. -/
theorem claim2 (prs : List PRRecord) (k : String) :
    valueAt (buildIndex prs) k = (contribSeq prs k).take 10 ∧
    valueAt (buildIndex prs) k <+: contribSeq prs k := by
  refine ⟨valueAt_buildIndex prs k, ?_⟩
  rw [valueAt_buildIndex prs k]
  exact List.take_prefix 10 (contribSeq prs k)

/-- C3: the aggregation loop applied to the two records
`{number:10, files:["a.ts","b.ts"]}` and `{number:3, files:["a.ts"]}`, in that
order, yields exactly the index `{"a.ts": [10, 3], "b.ts": [10]}`. -/
theorem claim3 :
    buildIndex [{ number := 10, files := ["a.ts", "b.ts"] },
                { number := 3, files := ["a.ts"] }] =
      [("a.ts", [10, 3]), ("b.ts", [10])] := by
  decide

/-- C7: a record yielding no contributions adds no keys (the index is
unchanged wherever it occurs in the input), and a duplicate contributing id
for the same key within the same record is appended as-is, with no
deduplication. -/
theorem claim7 :
    (∀ pre post : List PRRecord, ∀ pr : PRRecord, pr.files = [] →
      buildIndex (pre ++ pr :: post) = buildIndex (pre ++ post)) ∧
    (∀ prs : List PRRecord, ∀ p : String, ∀ n : Nat,
      (valueAt (buildIndex prs) p).length + 2 ≤ 10 →
      valueAt (buildIndex (prs ++ [{ number := n, files := [p, p] }])) p =
        valueAt (buildIndex prs) p ++ [n, n]) := by
  constructor
  · intro pre post pr hpr
    simp only [buildIndex, List.foldl_append, List.foldl_cons]
    have : addPR (pre.foldl addPR []) pr = pre.foldl addPR [] := by
      simp [addPR, hpr, addPaths]
    rw [this]
  · intro prs p n hlen
    have hfold : buildIndex (prs ++ [{ number := n, files := [p, p] }]) =
        addPR (buildIndex prs) { number := n, files := [p, p] } := by
      simp [buildIndex, List.foldl_append]
    rw [hfold, addPR, valueAt_addPaths]
    have hc : contribsOf [p, p] n p = [n, n] := by
      simp [contribsOf, List.filter]
    rw [hc]
    have h1 : (valueAt (buildIndex prs) p).length < 10 := by omega
    have h2 : (valueAt (buildIndex prs) p ++ [n]).length < 10 := by
      simp [List.length_append]; omega
    simp [pushAll, pushCap, h1, h2]
    omega

/-- Witness for C7 at concrete inputs: a record with no files changes nothing,
and a record listing `"a"` twice appends its number twice. -/
theorem claim7_witness :
    buildIndex ([{ number := 4, files := ["x"] }] ++
        ({ number := 5, files := [] } : PRRecord) :: []) =
      buildIndex ([{ number := 4, files := ["x"] }] ++ []) ∧
    valueAt (buildIndex ([] ++ [{ number := 7, files := ["a", "a"] }])) "a" =
      valueAt (buildIndex []) "a" ++ [7, 7] :=
  ⟨claim7.1 [{ number := 4, files := ["x"] }] [] { number := 5, files := [] } rfl,
    claim7.2 [] "a" 7 (by decide)⟩

theorem lookupKey_addPaths_isSome (ps : List String)
    (files : List (String × List Nat)) (n : Nat) (k : String)
    (h : (lookupKey k (addPaths files ps n)).isSome = true) :
    (lookupKey k files).isSome = true ∨ k ∈ ps := by
  induction ps generalizing files with
  | nil => exact Or.inl h
  | cons p ps ih =>
    rcases ih (addContribution files p n) h with h' | h'
    · rw [lookupKey_addContribution] at h'
      by_cases hp : p = k
      · exact Or.inr (by simp [hp.symm])
      · simp [hp] at h'
        exact Or.inl h'
    · exact Or.inr (by simp [h'])

theorem lookupKey_foldl_isSome (prs : List PRRecord) (k : String) :
    ∀ files : List (String × List Nat),
      (lookupKey k (prs.foldl addPR files)).isSome = true →
      (lookupKey k files).isSome = true ∨ ∃ pr ∈ prs, k ∈ pr.files := by
  induction prs with
  | nil => intro files h'; exact Or.inl h'
  | cons pr prs ih =>
    intro files h'
    rcases ih (addPR files pr) h' with h'' | h''
    · rcases lookupKey_addPaths_isSome pr.files files pr.number k h'' with h3 | h3
      · exact Or.inl h3
      · exact Or.inr ⟨pr, by simp, h3⟩
    · obtain ⟨pr', hpr', hk⟩ := h''
      exact Or.inr ⟨pr', by simp [hpr'], hk⟩

theorem lookupKey_buildIndex_isSome (prs : List PRRecord) (k : String)
    (h : (lookupKey k (buildIndex prs)).isSome = true) :
    ∃ pr ∈ prs, k ∈ pr.files := by
  rcases lookupKey_foldl_isSome prs k [] h with h' | h'
  · simp [lookupKey] at h'
  · exact h'

theorem mem_contribsOf (ps : List String) (n : Nat) (k : String) (m : Nat)
    (h : m ∈ contribsOf ps n k) : m = n ∧ k ∈ ps := by
  simp only [contribsOf, List.mem_map] at h
  obtain ⟨p, hp, hm⟩ := h
  have := List.of_mem_filter hp
  have hpk : p = k := by simpa using this
  exact ⟨hm.symm, hpk ▸ List.mem_of_mem_filter hp⟩

/-- C8: provenance invariant — every id stored at key `k` comes from an input
record whose number is that id and whose files include `k`, and every key in
the built index is a file path of some input record. -/
theorem claim8 (prs : List PRRecord) (k : String) (v : List Nat)
    (h : lookupKey k (buildIndex prs) = some v) :
    (∃ pr ∈ prs, k ∈ pr.files) ∧
    (∀ n ∈ v, ∃ pr ∈ prs, pr.number = n ∧ k ∈ pr.files) := by
  constructor
  · exact lookupKey_buildIndex_isSome prs k (by simp [h])
  · intro n hn
    have hv : v = (contribSeq prs k).take 10 := by
      have := valueAt_buildIndex prs k
      rw [valueAt, h] at this
      simpa using this
    have hmem : n ∈ contribSeq prs k := by
      have := hv ▸ hn
      exact List.mem_of_mem_take this
    simp only [contribSeq, List.mem_flatten, List.mem_map] at hmem
    obtain ⟨l, ⟨pr, hpr, hl⟩, hnl⟩ := hmem
    subst hl
    obtain ⟨hnum, hk⟩ := mem_contribsOf pr.files pr.number k n hnl
    exact ⟨pr, hpr, hnum.symm, hk⟩

/-- Witness for C8 at the concrete two-record input: every id stored at
`"a.ts"` comes from a record touching `"a.ts"`. -/
theorem claim8_witness :
    (∃ pr ∈ [({ number := 10, files := ["a.ts", "b.ts"] } : PRRecord),
             { number := 3, files := ["a.ts"] }], "a.ts" ∈ pr.files) ∧
    (∀ n ∈ [10, 3],
      ∃ pr ∈ [({ number := 10, files := ["a.ts", "b.ts"] } : PRRecord),
              { number := 3, files := ["a.ts"] }],
        pr.number = n ∧ "a.ts" ∈ pr.files) :=
  claim8 [{ number := 10, files := ["a.ts", "b.ts"] },
          { number := 3, files := ["a.ts"] }] "a.ts" [10, 3] (by decide)

/-- The DOM effect computed by `addToSingleFile`
(src/source/features/list-prs-for-file.tsx lines 109-124): either nothing is
inserted, or a single button (when exactly one PR touches the file), or a
dropdown listing the PRs. -/
inductive SingleFileAction
  | noInsert
  | insertButton (prNumber : Nat)
  | insertDropdown (prs : List Nat)
deriving DecidableEq, Repr

/-- Embedding of `addToSingleFile`: look up the current path in the fetched
index; `if (!prs) return;` — an absent key inserts nothing; otherwise insert
the single button (`prs.length === 1`) or the dropdown. `prs.headD 0` embeds
the destructuring `const [prNumber] = prs`. -/
def addToSingleFile (prsByFile : List (String × List Nat)) (path : String) :
    SingleFileAction :=
  match lookupKey path prsByFile with
  | none => SingleFileAction.noInsert
  | some prs =>
    if prs.length = 1 then SingleFileAction.insertButton (prs.headD 0)
    else SingleFileAction.insertDropdown prs

/-- The DOM effect computed by `addToEditingFile`
(src/source/features/list-prs-for-file.tsx lines 126-171): either nothing is
inserted, or a warning element listing the given PRs is inserted after the
file element. -/
inductive EditingFileAction
  | noInsert
  | insertWarning (prs : List Nat)
deriving DecidableEq, Repr

/-- Embedding of `addToEditingFile`: look up the current path; an absent key
inserts nothing; when the page URL's query string has a `pr` parameter, the PR
number being edited (parsed from the last `/`-separated segment of the
parameter, here passed already parsed as `editingPR`) is filtered out, and if
the filtered list is empty nothing is inserted; otherwise the warning is
inserted with the remaining PRs. JavaScript string-to-number coercion of the
parameter is outside the embedding. -/
def addToEditingFile (prsByFile : List (String × List Nat)) (path : String)
    (editingPR : Option Nat) : EditingFileAction :=
  match lookupKey path prsByFile with
  | none => EditingFileAction.noInsert
  | some prs =>
    match editingPR with
    | none => EditingFileAction.insertWarning prs
    | some m =>
      let filtered := prs.filter (fun pr => pr ≠ m)
      if filtered.length = 0 then EditingFileAction.noInsert
      else EditingFileAction.insertWarning filtered

/-- C9: when the current path has no entry in the fetched index, both
`addToSingleFile` and `addToEditingFile` return early and insert nothing. -/
theorem claim9 (prsByFile : List (String × List Nat)) (path : String)
    (editingPR : Option Nat) (h : lookupKey path prsByFile = none) :
    addToSingleFile prsByFile path = SingleFileAction.noInsert ∧
    addToEditingFile prsByFile path editingPR = EditingFileAction.noInsert := by
  constructor <;> simp [addToSingleFile, addToEditingFile, h]

/-- Witness for C9: the two-record index has no entry for `"c.ts"`, so neither
callback inserts anything there. -/
theorem claim9_witness :
    addToSingleFile [("a.ts", [10, 3]), ("b.ts", [10])] "c.ts" =
      SingleFileAction.noInsert ∧
    addToEditingFile [("a.ts", [10, 3]), ("b.ts", [10])] "c.ts" (some 10) =
      EditingFileAction.noInsert :=
  claim9 [("a.ts", [10, 3]), ("b.ts", [10])] "c.ts" (some 10) (by decide)

/-- C10: with a `pr` query parameter present, the edited PR number is filtered
out before rendering — it never appears in an inserted warning — and when the
filtering empties the list, no warning element is inserted. -/
theorem claim10 (prsByFile : List (String × List Nat)) (path : String)
    (m : Nat) (prs : List Nat) (h : lookupKey path prsByFile = some prs) :
    addToEditingFile prsByFile path (some m) =
      (if (prs.filter (fun pr => pr ≠ m)).length = 0 then EditingFileAction.noInsert
       else EditingFileAction.insertWarning (prs.filter (fun pr => pr ≠ m))) ∧
    (∀ l, addToEditingFile prsByFile path (some m) =
      EditingFileAction.insertWarning l → m ∉ l) := by
  have heq : addToEditingFile prsByFile path (some m) =
      (if (prs.filter (fun pr => pr ≠ m)).length = 0 then EditingFileAction.noInsert
       else EditingFileAction.insertWarning (prs.filter (fun pr => pr ≠ m))) := by
    simp [addToEditingFile, h]
  refine ⟨heq, ?_⟩
  intro l hl
  rw [heq] at hl
  by_cases hz : (prs.filter (fun pr => pr ≠ m)).length = 0
  · rw [if_pos hz] at hl
    exact absurd hl (by simp)
  · rw [if_neg hz] at hl
    injection hl with hfl
    subst hfl
    intro hmem
    have := List.of_mem_filter hmem
    simp at this

/-- Witness for C10: editing PR 10 on `"a.ts"` filters 10 out, leaving `[3]`;
PR 10 does not appear in the inserted warning. -/
theorem claim10_witness :
    addToEditingFile [("a.ts", [10, 3]), ("b.ts", [10])] "a.ts" (some 10) =
      (if (([10, 3] : List Nat).filter (fun pr => pr ≠ 10)).length = 0
       then EditingFileAction.noInsert
       else EditingFileAction.insertWarning
         (([10, 3] : List Nat).filter (fun pr => pr ≠ 10))) ∧
    (∀ l, addToEditingFile [("a.ts", [10, 3]), ("b.ts", [10])] "a.ts" (some 10) =
      EditingFileAction.insertWarning l → 10 ∉ l) :=
  claim10 [("a.ts", [10, 3]), ("b.ts", [10])] "a.ts" 10 [10, 3] (by decide)

end ListPrsForFile

namespace CacheModel

open ListPrsForFile

/-- Modelled from the spec: `CacheEntry<V> = { value, storedAt, scopeKey }`
(§3); the implementation behind `cache.function` (the `webext-storage-cache`
layer wrapping `getPrsByFile`) is not under src/. The scope key is carried as
the association-list key of the store. -/
structure CacheEntry (V : Type) where
  value : V
  storedAt : Nat
deriving DecidableEq, Repr

/-- The cache storage: a partition of entries by scope key. -/
def CacheStore (V : Type) : Type := List (String × CacheEntry V)

/-- Replace (not mutate) the entry stored for a scope key, creating it when
absent. -/
def updateEntry {V : Type} : CacheStore V → String → CacheEntry V → CacheStore V
  | [], k, e => [(k, e)]
  | (k', e') :: rest, k, e =>
    if k' = k then (k, e) :: rest else (k', e') :: updateEntry rest k e

/-- Modelled from the spec: one `get` call on the cached `getPrsByFile`
(§4.1 CacheStore, §7). The producer's outcome for this call is passed as an
`Except`. No entry: a successful producer stores and returns the value, a
rejecting producer rejects the call. Entry newer than `maxAge`: the stored
value is returned without refresh. Entry older than `maxAge`: a refresh runs;
on success the entry is replaced, on failure the previous value is served and
the failure swallowed. Whether the refresh is awaited (hard expiry) or runs in
the background (stale-while-revalidate window) affects only scheduling, never
the returned value or the resulting store, so both are one refresh step here. -/
def getCached {V : Type} (store : CacheStore V) (k : String) (now maxAge : Nat)
    (producer : Except Unit V) : CacheStore V × Except Unit V :=
  match lookupKey k store with
  | none =>
    match producer with
    | Except.ok v => (updateEntry store k ⟨v, now⟩, Except.ok v)
    | Except.error e => (store, Except.error e)
  | some entry =>
    if now - entry.storedAt ≤ maxAge then
      (store, Except.ok entry.value)
    else
      match producer with
      | Except.ok v => (updateEntry store k ⟨v, now⟩, Except.ok v)
      | Except.error _ => (store, Except.ok entry.value)

/-- Modelled from the spec: caller-invoked invalidation logically deletes the
entry for one scope key (§3). -/
def invalidate {V : Type} (store : CacheStore V) (k : String) : CacheStore V :=
  store.filter (fun kv => kv.1 ≠ k)

/-- Modelled from the spec: `cacheByRepo` (src/source/github-helpers, not
under src/) derives the scope key from the current repository identity,
`owner/name`. -/
def cacheByRepo (owner name : String) : String :=
  owner ++ "/" ++ name

/-- C4: if the producer rejects and no cached value exists for the current
scope key, the call rejects; if a previously cached value exists and the
refresh fails, the call resolves with the previous value and the producer's
failure is not surfaced. -/
theorem claim4 {V : Type} (store : CacheStore V) (k : String) (now maxAge : Nat) :
    (lookupKey k store = none →
      (getCached store k now maxAge (Except.error ())).2 = Except.error ()) ∧
    (∀ entry, lookupKey k store = some entry →
      (getCached store k now maxAge (Except.error ())).2 = Except.ok entry.value) := by
  constructor
  · intro h
    simp [getCached, h]
  · intro entry h
    by_cases hage : now - entry.storedAt ≤ maxAge <;> simp [getCached, h, hage]

/-- Witness for C4 at the spec's scenario value: a cold cache rejects with the
failing producer; a cache holding the two-record index past `maxAge` serves
the previous index instead of rejecting. -/
theorem claim4_witness :
    (getCached ([] : CacheStore (List (String × List Nat)))
      (cacheByRepo "alice" "r1") 5 2 (Except.error ())).2 = Except.error () ∧
    (getCached [((cacheByRepo "alice" "r1" : String),
        (⟨[("a.ts", [10, 3]), ("b.ts", [10])], 0⟩ : CacheEntry (List (String × List Nat))))]
      (cacheByRepo "alice" "r1") 5 2 (Except.error ())).2 =
      Except.ok [("a.ts", [10, 3]), ("b.ts", [10])] :=
  ⟨(claim4 ([] : CacheStore (List (String × List Nat)))
      (cacheByRepo "alice" "r1") 5 2).1 (by decide),
    (claim4 [((cacheByRepo "alice" "r1" : String),
        (⟨[("a.ts", [10, 3]), ("b.ts", [10])], 0⟩ : CacheEntry (List (String × List Nat))))]
      (cacheByRepo "alice" "r1") 5 2).2
      ⟨[("a.ts", [10, 3]), ("b.ts", [10])], 0⟩ (by decide)⟩

theorem lookupKey_updateEntry {V : Type} (store : CacheStore V) (k1 k2 : String)
    (e : CacheEntry V) (h : k1 ≠ k2) :
    lookupKey k2 (updateEntry store k1 e) = lookupKey k2 store := by
  have hne : ¬ k1 = k2 := h
  have hne2 : ¬ k2 = k1 := fun hh => h hh.symm
  induction store with
  | nil => simp [updateEntry, lookupKey, hne]
  | cons hd tl ih =>
    obtain ⟨k', e'⟩ := hd
    by_cases hk : k' = k1
    · simp [updateEntry, lookupKey, hk, hne, hne2]
    · by_cases hk2 : k' = k2 <;> simp [updateEntry, lookupKey, hk, hk2, hne2, ih]

theorem lookupKey_invalidate {V : Type} (store : CacheStore V) (k1 k2 : String)
    (h : k1 ≠ k2) :
    lookupKey k2 (invalidate store k1) = lookupKey k2 store := by
  have hne : ¬ k1 = k2 := h
  have hne2 : ¬ k2 = k1 := fun hh => h hh.symm
  induction store with
  | nil => simp [invalidate, lookupKey]
  | cons hd tl ih =>
    obtain ⟨k', e'⟩ := hd
    simp only [invalidate, ne_eq, decide_not] at ih ⊢
    by_cases hk : k' = k1
    · simp [lookupKey, hk, hne, ih]
    · by_cases hk2 : k' = k2
      · simp [lookupKey, hk, hk2, hne2]
      · simp [lookupKey, hk, hk2, ih]

/-- C5: for scope keys `k1 ≠ k2` (such as `cacheByRepo` values of two
different repositories), refreshing via a `get` call or invalidating the
entry for `k1` never alters the stored entry (value or timestamp) for `k2`. -/
theorem claim5 {V : Type} (store : CacheStore V) (k1 k2 : String) (h : k1 ≠ k2)
    (now maxAge : Nat) (producer : Except Unit V) :
    lookupKey k2 (getCached store k1 now maxAge producer).1 = lookupKey k2 store ∧
    lookupKey k2 (invalidate store k1) = lookupKey k2 store := by
  refine ⟨?_, lookupKey_invalidate store k1 k2 h⟩
  unfold getCached
  cases hl : lookupKey k1 store with
  | none =>
    cases producer with
    | ok v => simpa using lookupKey_updateEntry store k1 k2 ⟨v, now⟩ h
    | error e => rfl
  | some entry =>
    by_cases hage : now - entry.storedAt ≤ maxAge
    · simp [hage]
    · cases producer with
      | ok v =>
        simp [hage]
        exact lookupKey_updateEntry store k1 k2 ⟨v, now⟩ h
      | error e => simp [hage]

/-- Witness for C5: two different repositories' scope keys; refreshing and
invalidating one leaves the other's entry untouched. -/
theorem claim5_witness :
    lookupKey (cacheByRepo "bob" "r2")
      (getCached [((cacheByRepo "bob" "r2" : String),
          (⟨[("a.ts", [10, 3])], 3⟩ : CacheEntry (List (String × List Nat))))]
        (cacheByRepo "alice" "r1") 5 2 (Except.ok [])).1 =
      lookupKey (cacheByRepo "bob" "r2")
        [((cacheByRepo "bob" "r2" : String),
          (⟨[("a.ts", [10, 3])], 3⟩ : CacheEntry (List (String × List Nat))))] ∧
    lookupKey (cacheByRepo "bob" "r2")
      (invalidate [((cacheByRepo "bob" "r2" : String),
          (⟨[("a.ts", [10, 3])], 3⟩ : CacheEntry (List (String × List Nat))))]
        (cacheByRepo "alice" "r1")) =
      lookupKey (cacheByRepo "bob" "r2")
        [((cacheByRepo "bob" "r2" : String),
          (⟨[("a.ts", [10, 3])], 3⟩ : CacheEntry (List (String × List Nat))))] :=
  claim5 [((cacheByRepo "bob" "r2" : String),
      (⟨[("a.ts", [10, 3])], 3⟩ : CacheEntry (List (String × List Nat))))]
    (cacheByRepo "alice" "r1") (cacheByRepo "bob" "r2") (by decide) 5 2 (Except.ok [])

end CacheModel

namespace ObserverModel

/-- Modelled from the spec: the dispatch of one `observe` watch (§4.3
SelectorObserver); `observe` from src/helpers/selector-observer is not under
src/. Concrete document elements are modelled by natural-number ids,
`sel` is the selector predicate, `seen` accumulates the elements already
dispatched, and the mutation stream is processed in arrival order: an element
that sel and has not been dispatched yet is dispatched (appended), any
other mutation is ignored. -/
def dispatchMutations (sel : Nat → Bool) : List Nat → List Nat → List Nat
  | seen, [] => seen
  | seen, e :: rest =>
    dispatchMutations sel
      (if sel e = true ∧ e ∉ seen then seen ++ [e] else seen) rest

/-- Modelled from the spec: the full dispatch sequence of one watch — the
initial scan collects the already-present sel in document order, then the
mutation-added elements follow in arrival order, each dispatched at most
once. -/
def dispatchList (sel : Nat → Bool) (initial mutations : List Nat) : List Nat :=
  dispatchMutations sel (initial.filter sel) mutations

theorem dispatchMutations_extends_seen (sel : Nat → Bool) (ms : List Nat) :
    ∀ seen : List Nat, seen <+: dispatchMutations sel seen ms := by
  induction ms with
  | nil => intro seen; simp [dispatchMutations]
  | cons e rest ih =>
    intro seen
    by_cases hc : sel e = true ∧ e ∉ seen
    · have h1 : seen <+: seen ++ [e] := by simp
      have h2 := ih (seen ++ [e])
      simpa [dispatchMutations, hc] using h1.trans h2
    · simpa [dispatchMutations, hc] using ih seen

theorem dispatchMutations_nodup (sel : Nat → Bool) (ms : List Nat) :
    ∀ seen : List Nat, seen.Nodup → (dispatchMutations sel seen ms).Nodup := by
  induction ms with
  | nil => intro seen h; simpa [dispatchMutations] using h
  | cons e rest ih =>
    intro seen h
    by_cases hc : sel e = true ∧ e ∉ seen
    · have : (seen ++ [e]).Nodup := by
        simp [List.nodup_append, h, hc.2]
      simpa [dispatchMutations, hc] using ih (seen ++ [e]) this
    · simpa [dispatchMutations, hc] using ih seen h

theorem dispatchMutations_complete (sel : Nat → Bool) (ms : List Nat) :
    ∀ seen : List Nat, ∀ e, e ∈ ms → sel e = true →
      e ∈ dispatchMutations sel seen ms := by
  induction ms with
  | nil => intro seen e he; simp at he
  | cons m rest ih =>
    intro seen e he hm
    rcases List.mem_cons.mp he with he | he
    · subst he
      by_cases hc : sel e = true ∧ e ∉ seen
      · have hmem : e ∈ e :: rest → True := fun _ => trivial
        have hpre := dispatchMutations_extends_seen sel rest (seen ++ [e])
        have : e ∈ seen ++ [e] := by simp
        simpa [dispatchMutations, hc] using hpre.subset this
      · have hseen : e ∈ seen := by
          rcases not_and_or.mp hc with h' | h'
          · exact absurd hm h'
          · simpa using h'
        have hpre := dispatchMutations_extends_seen sel rest seen
        simpa [dispatchMutations, hc] using hpre.subset hseen
    · by_cases hc : sel m = true ∧ m ∉ seen <;>
        simpa [dispatchMutations, hc] using ih _ e he hm

theorem dispatchMutations_sublist (sel : Nat → Bool) (ms : List Nat) :
    ∀ seen : List Nat, (dispatchMutations sel seen ms).Sublist (seen ++ ms) := by
  induction ms with
  | nil => intro seen; simp [dispatchMutations]
  | cons e rest ih =>
    intro seen
    by_cases hc : sel e = true ∧ e ∉ seen
    · have h1 := ih (seen ++ [e])
      have h2 : ((seen ++ [e]) ++ rest) = seen ++ e :: rest := by simp
      rw [h2] at h1
      simpa [dispatchMutations, hc] using h1
    · have h1 := ih seen
      have h2 : (seen ++ rest).Sublist (seen ++ e :: rest) :=
        List.Sublist.append_left (List.sublist_cons_self e rest) seen
      simpa [dispatchMutations, hc] using h1.trans h2


/-- C6: for one watch, every concrete element that ever matches the selector —
present at call time or added by a later mutation — is dispatched to the
callback exactly once: the dispatch sequence has no repeated element and
contains every matching element; elements present at call time come first, in
document order, and later-added elements follow in mutation-arrival order. -/
theorem claim6 (sel : Nat → Bool) (initial mutations : List Nat)
    (h : initial.Nodup) :
    (dispatchList sel initial mutations).Nodup ∧
    (∀ e, sel e = true → e ∈ initial ∨ e ∈ mutations →
      e ∈ dispatchList sel initial mutations) ∧
    initial.filter sel <+: dispatchList sel initial mutations ∧
    (dispatchList sel initial mutations).Sublist (initial.filter sel ++ mutations) := by
  refine ⟨dispatchMutations_nodup sel mutations _ (h.filter sel), ?_, ?_, ?_⟩
  · intro e he hmem
    rcases hmem with hmem | hmem
    · have hin : e ∈ initial.filter sel := List.mem_filter.mpr ⟨hmem, he⟩
      exact (dispatchMutations_extends_seen sel mutations (initial.filter sel)).subset hin
    · exact dispatchMutations_complete sel mutations (initial.filter sel) e hmem he
  · exact dispatchMutations_extends_seen sel mutations (initial.filter sel)
  · exact dispatchMutations_sublist sel mutations (initial.filter sel)

/-- Witness for C6 at a concrete watch: selector "even id", elements 2 and 3
present initially, elements 4 and (again) 2 arriving as mutations; the
dispatch sequence is duplicate-free, complete, and ordered. -/
theorem claim6_witness :
    (dispatchList (fun e => e % 2 == 0) [2, 3] [4, 2]).Nodup ∧
    (∀ e, (fun e => e % 2 == 0) e = true → e ∈ [2, 3] ∨ e ∈ [4, 2] →
      e ∈ dispatchList (fun e => e % 2 == 0) [2, 3] [4, 2]) ∧
    ([2, 3].filter (fun e => e % 2 == 0)) <+:
      dispatchList (fun e => e % 2 == 0) [2, 3] [4, 2] ∧
    (dispatchList (fun e => e % 2 == 0) [2, 3] [4, 2]).Sublist
      ([2, 3].filter (fun e => e % 2 == 0) ++ [4, 2]) :=
  claim6 (fun e => e % 2 == 0) [2, 3] [4, 2] (by decide)

end ObserverModel
